import Mathlib

/-!
Verification of the evaluation and table-formatting utilities of the
dspy_wtq repository (`src/utils/eval_utils.py`, `src/utils/table_utils.py`,
`src/main.py`).

Python strings are modelled as lists of code points (`List Nat`); every
string primitive used by the code (strip, lower, split, join, replace,
rstrip, zfill, substring test) is given its Python meaning on that model.
The model is ASCII-faithful: `str.lower`, `str.strip()` and `Decimal`
parsing are given their Python behaviour on ASCII data (the repository's
answer strings); behaviour that Python defines only for non-ASCII
code points (locale-free Unicode case mapping, exotic whitespace,
non-ASCII decimal digits) is out of scope of the model.

`decimal.Decimal` is modelled by `PyDec` together with `dec_parse`
(the numeric-string grammar of the `decimal` module: underscores removed
throughout, surrounding whitespace ignored, optional sign, digits with
optional fraction and exponent, `Infinity`/`NaN`/`sNaN` forms),
`dec_str` (`to-scientific-string`, what Python's `str` returns) and
`dec_format_f` (`format(d, "f")`, fixed-point form).
-/

namespace DspyWtq

/-- Code points of a Lean string literal, the bridge between concrete
test strings and the `List Nat` model. -/
def chars (s : String) : List Nat := s.toList.map Char.toNat

/-! ## Character classes (ASCII) -/

/-- Whitespace as stripped by Python's `str.strip()` / `str.split()`
on ASCII text: space, tab, newline, carriage return, vertical tab,
form feed. -/
def pyWs (c : Nat) : Bool :=
  c = 32 || c = 9 || c = 10 || c = 13 || c = 11 || c = 12

/-- ASCII decimal digit. -/
def isDigitN (c : Nat) : Bool := 48 ≤ c && c ≤ 57

/-- Python `str.lower` on a code point (ASCII range). -/
def lowerC (c : Nat) : Nat := if 65 ≤ c && c ≤ 90 then c + 32 else c

/-- Python `str.lower` on a string. -/
def lowerL (l : List Nat) : List Nat := l.map lowerC

/-! ## strip / rstrip -/

/-- Remove the longest run of characters satisfying `p` from the front. -/
def dropRunL (p : Nat → Bool) (l : List Nat) : List Nat := l.dropWhile p

/-- Remove the longest run of characters satisfying `p` from the back. -/
def dropRunR (p : Nat → Bool) (l : List Nat) : List Nat :=
  (l.reverse.dropWhile p).reverse

/-- Python `s.strip(set)`: drop characters of the set from both ends. -/
def pyStrip (p : Nat → Bool) (l : List Nat) : List Nat :=
  dropRunR p (dropRunL p l)

/-- Python `s.rstrip(set)`. -/
def pyRstrip (p : Nat → Bool) (l : List Nat) : List Nat := dropRunR p l

/-- Python `s.strip()` (no argument: whitespace). -/
def pyStripWs (l : List Nat) : List Nat := pyStrip pyWs l

/-! ## split / join -/

/-- Python `s.split()` (no argument): maximal runs of non-whitespace,
empty pieces never produced.  Structured right to left: a non-whitespace
character either starts a new word (when followed by whitespace or the
end) or extends the word that follows it. -/
def pySplitWs : List Nat → List (List Nat)
  | [] => []
  | c :: r =>
    let rest := pySplitWs r
    if pyWs c then rest
    else
      match r with
      | [] => [[c]]
      | d :: _ =>
        if pyWs d then [c] :: rest
        else
          match rest with
          | w :: ws => (c :: w) :: ws
          | [] => [[c]]

/-- Python `sep.join(pieces)`. -/
def pyJoin (sep : List Nat) : List (List Nat) → List Nat
  | [] => []
  | [w] => w
  | w :: ws => w ++ sep ++ pyJoin sep ws

/-- `" ".join(s.split())`: whitespace normalization used by
`normalize_token`. -/
def collapseWs (l : List Nat) : List Nat := pyJoin [32] (pySplitWs l)

/-- Python `s.split(sep)` for a one-character separator `sep`:
pieces between occurrences, empty pieces kept, always nonempty. -/
def pySplitChar (c : Nat) : List Nat → List (List Nat)
  | [] => [[]]
  | a :: r =>
    if a = c then [] :: pySplitChar c r
    else
      match pySplitChar c r with
      | h :: t => (a :: h) :: t
      | [] => [[a]]

/-! ## startswith / endswith / substring / replace -/

/-- Python `s.startswith(pat)` (first argument is the pattern). -/
def startsWithL : List Nat → List Nat → Bool
  | [], _ => true
  | _ :: _, [] => false
  | a :: as, b :: bs => a = b && startsWithL as bs

/-- Python `pat in s` (substring containment; first argument is the
pattern). -/
def isSub (pat : List Nat) : List Nat → Bool
  | [] => startsWithL pat []
  | l@(_ :: rest) => startsWithL pat l || isSub pat rest

/-- Worker for `pyReplace`, structurally recursive on a fuel argument
so that the kernel can evaluate it; each step consumes at least one
character, so `fuel = l.length` is always enough and the fuel-exhausted
case is unreachable. -/
def pyReplaceGo (old new : List Nat) : Nat → List Nat → List Nat
  | _, [] => if old = [] then new else []
  | 0, l => l
  | fuel + 1, c :: rest =>
    if old = [] then new ++ c :: pyReplaceGo old new fuel rest
    else if startsWithL old (c :: rest) then
      new ++ pyReplaceGo old new fuel ((c :: rest).drop old.length)
    else c :: pyReplaceGo old new fuel rest

/-- Python `s.replace(old, new)`: non-overlapping left-to-right
replacement, including the empty-pattern case (`old = ""` interleaves
`new` around every character). -/
def pyReplace (old new l : List Nat) : List Nat := pyReplaceGo old new l.length l

/-! ## Integer rendering (Python `str(int)`) -/

/-- Digit values of a natural number, most significant first;
fuel-driven so that the kernel can evaluate it (`fuel = n` is always
enough, since a number has no more digits than its own value). -/
def natToDigitsGo : Nat → Nat → List Nat
  | 0, n => [n]
  | fuel + 1, n => if n < 10 then [n] else natToDigitsGo fuel (n / 10) ++ [n % 10]

/-- Digit values of a natural number, most significant first. -/
def natToDigits (n : Nat) : List Nat := natToDigitsGo n n

/-- Render digit values as ASCII digit code points. -/
def digitsToCodes (ds : List Nat) : List Nat := ds.map (fun d => 48 + d)

/-- Python `str` of an integer. -/
def intStr (i : Int) : List Nat :=
  if i < 0 then 45 :: digitsToCodes (natToDigits i.natAbs)
  else digitsToCodes (natToDigits i.natAbs)

/-- Numeric value of a list of digit values. -/
def digitsToNat (ds : List Nat) : Nat := ds.foldl (fun acc d => 10 * acc + d) 0

/-! ## The `decimal.Decimal` model -/

/-- A Python `Decimal` value: finite (sign, coefficient digits without
leading zeros — `[0]` for zero — and exponent), infinity, or (signaling)
NaN with a diagnostic payload (leading zeros stripped, possibly empty). -/
inductive PyDec where
  | fin (sign : Bool) (coeff : List Nat) (exp : Int)
  | inf (sign : Bool)
  | nan (sign : Bool) (signaling : Bool) (payload : List Nat)
deriving DecidableEq, Repr

/-- Strip an optional leading `+`/`-`; `true` means negative. -/
def splitSign : List Nat → Bool × List Nat
  | 43 :: r => (false, r)
  | 45 :: r => (true, r)
  | r => (false, r)

/-- Drop leading zero digit values, keeping `[0]` for an all-zero or
empty digit string (Python's coefficient normalization). -/
def canonDigits (ds : List Nat) : List Nat :=
  match ds.dropWhile (fun d => d = 0) with
  | [] => [0]
  | l => l

/-- Parse a Decimal numeric string body (sign already removed).
Mirrors the fullmatch regex of the `decimal` module: digits with
optional `.`-fraction and `e`/`E`-exponent (at least one digit in the
integer-or-fraction part and in any exponent), or the `Infinity`,
`NaN`, `sNaN` forms, case-insensitively.
Returns `none` exactly when Python's `Decimal` constructor raises
`InvalidOperation`. -/
def decParseBody (sg : Bool) (l : List Nat) : Option PyDec :=
  -- plain numeric form
  let ip := l.takeWhile (fun c => isDigitN c)
  let r1 := l.dropWhile (fun c => isDigitN c)
  let hasDot := startsWithL [46] r1
  let afterDot := if hasDot then r1.drop 1 else r1
  let fp := if hasDot then afterDot.takeWhile (fun c => isDigitN c) else []
  let r2 := if hasDot then afterDot.dropWhile (fun c => isDigitN c) else r1
  if ip ≠ [] ∨ fp ≠ [] then
    -- at least one digit present (the regex lookahead)
    let digits := (ip ++ fp).map (fun c => c - 48)
    match r2 with
    | [] => some (.fin sg (canonDigits digits) (0 - (fp.length : Int)))
    | e :: r3 =>
      if e = 101 ∨ e = 69 then
        let (es, r4) := splitSign r3
        let ed := r4.takeWhile (fun c => isDigitN c)
        let r5 := r4.dropWhile (fun c => isDigitN c)
        if ed ≠ [] ∧ r5 = [] then
          let ev : Int := (digitsToNat (ed.map (fun c => c - 48)) : Int)
          let ev := if es then -ev else ev
          some (.fin sg (canonDigits digits) (ev - (fp.length : Int)))
        else none
      else none
  else
    -- Infinity / NaN forms (case-insensitive)
    let ll := lowerL l
    if ll = chars "inf" ∨ ll = chars "infinity" then some (.inf sg)
    else
      let (snl, body) := if startsWithL [115] ll then (true, ll.drop 1) else (false, ll)
      if startsWithL (chars "nan") body then
        let diag := body.drop 3
        if diag.all (fun c => isDigitN c) then
          some (.nan sg snl ((diag.map (fun c => c - 48)).dropWhile (fun d => d = 0)))
        else none
      else none

/-- Python `Decimal(s)` on a string: surrounding whitespace and all
underscores are removed, then the numeric-string grammar is applied.
`none` models the `InvalidOperation` exception. -/
def dec_parse (raw : List Nat) : Option PyDec :=
  let l := (pyStripWs raw).filter (fun c => c ≠ 95)
  let (sg, body) := splitSign l
  decParseBody sg body

/-- Fixed-point rendering of a finite value's digits (code points),
given the coefficient digit values and the exponent; shared by
`dec_str` (when no exponent marker is used) and `dec_format_f`. -/
def decPlain (coeff : List Nat) (exp : Int) : List Nat :=
  let cd := digitsToCodes coeff
  if exp = 0 then cd
  else
    let lp : Int := (coeff.length : Int) + exp
    if lp ≤ 0 then [48, 46] ++ List.replicate (-lp).toNat 48 ++ cd
    else cd.take lp.toNat ++ 46 :: cd.drop lp.toNat

/-- Python `str(d)` for a `Decimal`: the General Decimal Arithmetic
`to-scientific-string` conversion (plain form when the exponent is ≤ 0
and the adjusted exponent is ≥ −6, scientific `E` form otherwise). -/
def dec_str : PyDec → List Nat
  | .fin sg coeff exp =>
    let adj : Int := exp + coeff.length - 1
    let body :=
      if exp ≤ 0 ∧ -6 ≤ adj then decPlain coeff exp
      else
        let cd := digitsToCodes coeff
        cd.take 1 ++ (if 1 < coeff.length then 46 :: cd.drop 1 else []) ++
          69 :: (if 0 ≤ adj then 43 :: digitsToCodes (natToDigits adj.toNat)
                 else 45 :: digitsToCodes (natToDigits (-adj).toNat))
    (if sg then [45] else []) ++ body
  | .inf sg => (if sg then [45] else []) ++ chars "Infinity"
  | .nan sg snl payload =>
    (if sg then [45] else []) ++ (if snl then [115] else []) ++
      chars "NaN" ++ digitsToCodes payload

/-- Python `format(d, "f")` for a `Decimal`: fixed-point, never an
exponent marker; `NaN`/`Infinity` render as in `str`. -/
def dec_format_f : PyDec → List Nat
  | .fin sg coeff exp =>
    let body :=
      if 0 ≤ exp then digitsToCodes coeff ++ List.replicate exp.toNat 48
      else decPlain coeff exp
    (if sg then [45] else []) ++ body
  | .inf sg => (if sg then [45] else []) ++ chars "Infinity"
  | .nan sg snl payload =>
    (if sg then [45] else []) ++ (if snl then [115] else []) ++
      chars "NaN" ++ digitsToCodes payload

/-! ## `eval_utils.normalize_token` -/

/-- Code points stripped by `s0.strip(" .,")`: space, `.`, `,`. -/
def sdcPunct (c : Nat) : Bool := c = 32 || c = 46 || c = 44

/-- Lines 14–16 of `eval_utils.py`: the intermediate `s0` of
`normalize_token` — `s.strip().strip(chr(34)).strip(chr(39)).lower()`,
then whitespace collapsing, then `strip(" .,")`. -/
def s0_of (s : List Nat) : List Nat :=
  pyStrip sdcPunct (collapseWs (lowerL
    (pyStrip (fun c => c = 39) (pyStrip (fun c => c = 34) (pyStripWs s)))))

/-- Lines 17–21 of `eval_utils.py`: the intermediate `t` — `s0` with
every `,` removed, a trailing `%` dropped, a leading `$` dropped. -/
def t_of (s : List Nat) : List Nat :=
  let t := (s0_of s).filter (fun c => c ≠ 44)
  let t := if t ≠ [] ∧ t.getLast? = some 37 then t.dropLast else t
  if startsWithL [36] t then t.drop 1 else t

/-- Line 24 of `eval_utils.py`: the value returned when `Decimal(t)`
succeeds — `format(d, "f").rstrip("0").rstrip(".")` when `str(d)`
contains a dot, else `str(d)`. -/
def dec_out (d : PyDec) : List Nat :=
  if 46 ∈ dec_str d then
    pyRstrip (fun c => c = 46) (pyRstrip (fun c => c = 48) (dec_format_f d))
  else dec_str d

/-- `eval_utils.normalize_token`: canonicalize an answer token. -/
def normalize_token (s : List Nat) : List Nat :=
  match dec_parse (t_of s) with
  | some d => dec_out d
  | none => s0_of s

/-! ## `eval_utils.split_prediction` -/

/-- `eval_utils.split_prediction`: split a prediction text into
normalized answer tokens (`gold_count` is a Python `int`). -/
def split_prediction (pred_text : List Nat) (gold_count : Int) : List (List Nat) :=
  let txt := pyStripWs pred_text
  if gold_count ≤ 1 then [normalize_token txt]
  else
    let raw := ((pySplitChar 124 txt).map pyStripWs).filter (fun x => x ≠ [])
    let raw :=
      if raw.length ≤ 1 then
        ((pySplitChar 44 txt).map pyStripWs).filter (fun x => x ≠ [])
      else raw
    if raw ≠ [] then raw.map normalize_token else [normalize_token txt]

/-! ## `eval_utils.denotation_accuracy` -/

/-- Python set equality of the two normalized token sets built on
lines 50–51 of `eval_utils.py`. -/
def pySetEqNorm (g p : List (List Nat)) : Bool :=
  decide ((g.map normalize_token).toFinset = (p.map normalize_token).toFinset)

/-- `eval_utils.denotation_accuracy`: `none` models the failure of the
`assert len(golds) == len(preds)`; the float division is modelled
exactly over `ℚ`. -/
def denotation_accuracy (golds preds : List (List (List Nat))) : Option ℚ :=
  if golds.length = preds.length then
    let correct := ((golds.zip preds).filter (fun gp => pySetEqNorm gp.1 gp.2)).length
    some (if golds.length = 0 then 0 else (correct : ℚ) / (golds.length : ℚ))
  else none

/-! ## `eval_utils.normalize_answer` (also duplicated in `main.py`) -/

/-- The scan of `re.sub(r"(\d),(\d)", r"\1\2", text)`: a comma between
two digits is removed; matches are found left to right and do not
overlap (so `1,2,3` becomes `12,3`). -/
def collapseDigitCommas : List Nat → List Nat
  | a :: 44 :: b :: rest =>
    if isDigitN a ∧ isDigitN b then a :: b :: collapseDigitCommas rest
    else a :: 44 :: collapseDigitCommas (b :: rest)
  | a :: rest => a :: collapseDigitCommas rest
  | [] => []

/-- The scan of `re.sub(r"\s+", " ", text)`: every maximal whitespace
run becomes one space. -/
def wsRunsToSpace : List Nat → List Nat
  | [] => []
  | c :: r =>
    let rest := wsRunsToSpace r
    if pyWs c then
      match r with
      | [] => [32]
      | d :: _ => if pyWs d then rest else 32 :: rest
    else c :: rest

/-- The scan of `re.sub(r"[–—−]", "-", text)`: en dash (U+2013), em dash
(U+2014) and minus sign (U+2212) become an ASCII hyphen. -/
def dashFix (c : Nat) : Nat :=
  if c = 8211 ∨ c = 8212 ∨ c = 8722 then 45 else c

/-- `eval_utils.normalize_answer` / `main.normalize_answer` (the two
copies are textually identical): the loose normalizer of the agent
scripts.  The falsy check `if not text` is emptiness for strings. -/
def normalize_answer (text : List Nat) : List Nat :=
  if text = [] then []
  else
    let t := pyStripWs (lowerL text)
    let t := collapseDigitCommas t
    let t := pyRstrip (fun c => c = 46) t
    let t := t.map dashFix
    pyStripWs (wsRunsToSpace t)

/-! ## `eval_utils.is_answer_correct` (also duplicated in `main.py`) -/

/-- A Python float as produced by `float(string)`: finite values are
idealized as exact rationals (the claims settled here never depend on
IEEE-754 rounding of this branch). -/
inductive PyFloat where
  | fin (q : ℚ)
  | pinf
  | ninf
  | nan
deriving DecidableEq

/-- Parse for Python `float(s)` (ASCII model, underscores not
modelled): optional sign, digits with optional fraction and exponent,
or case-insensitive `inf`/`infinity`/`nan`. `none` models
`ValueError`. -/
def pyFloat (raw : List Nat) : Option PyFloat :=
  let l := pyStripWs raw
  let (sg, body) := splitSign l
  let ip := body.takeWhile (fun c => isDigitN c)
  let r1 := body.dropWhile (fun c => isDigitN c)
  let hasDot := startsWithL [46] r1
  let afterDot := if hasDot then r1.drop 1 else r1
  let fp := if hasDot then afterDot.takeWhile (fun c => isDigitN c) else []
  let r2 := if hasDot then afterDot.dropWhile (fun c => isDigitN c) else r1
  if ip ≠ [] ∨ fp ≠ [] then
    let mant : ℚ := (digitsToNat ((ip ++ fp).map (fun c => c - 48)) : ℚ)
    let step1 : Option ℚ :=
      match r2 with
      | [] => some (mant / ((10 : ℚ) ^ fp.length))
      | e :: r3 =>
        if e = 101 ∨ e = 69 then
          let (es, r4) := splitSign r3
          let ed := r4.takeWhile (fun c => isDigitN c)
          let r5 := r4.dropWhile (fun c => isDigitN c)
          if ed ≠ [] ∧ r5 = [] then
            let ev : Int := (digitsToNat (ed.map (fun c => c - 48)) : Int)
            let ev := if es then -ev else ev
            some (mant / ((10 : ℚ) ^ fp.length) * (10 : ℚ) ^ ev)
          else none
        else none
    match step1 with
    | some q => some (.fin (if sg then -q else q))
    | none => none
  else
    let ll := lowerL body
    if ll = chars "inf" ∨ ll = chars "infinity" then
      some (if sg then .ninf else .pinf)
    else if ll = chars "nan" then some .nan
    else none

/-- `abs(a - b) < 1e-6` on Python floats: false whenever either side is
NaN or the difference is not finite. -/
def pyFloatClose (a b : PyFloat) : Bool :=
  match a, b with
  | .fin x, .fin y => decide (|x - y| < 1 / 1000000)
  | _, _ => false

/-- The numeric fallback of the comparison loop: both sides parse as
floats after `replace(",", "")` and differ by less than `1e-6`. -/
def floatCloseStr (a b : List Nat) : Bool :=
  match pyFloat (a.filter (fun c => c ≠ 44)), pyFloat (b.filter (fun c => c ≠ 44)) with
  | some x, some y => pyFloatClose x y
  | _, _ => false

/-- The abstention test on a normalized string: contains
`"i don't know"` or `"don't know"` (the first is subsumed by the
second; the code checks both). -/
def hasDontKnow (n : List Nat) : Bool :=
  isSub (chars "i don" ++ [39] ++ chars "t know") n ||
  isSub (chars "don" ++ [39] ++ chars "t know") n

/-- The gold-side abstention test: normalization contains
`"i don't know"`, `"don't know"` or `"unknown"`. -/
def goldDontKnow (n : List Nat) : Bool :=
  hasDontKnow n || isSub (chars "unknown") n

/-- `eval_utils.is_answer_correct` / `main.is_answer_correct` (textually
identical copies): the loose single-answer comparison of the agent
scripts.  Falsy checks on `predicted` and `expected_answers` are
emptiness. -/
def is_answer_correct (predicted : List Nat) (expected_answers : List (List Nat)) : Bool :=
  if predicted = [] ∨ expected_answers = [] then false
  else
    let pred_norm := normalize_answer predicted
    if hasDontKnow pred_norm then
      expected_answers.any (fun e => goldDontKnow (normalize_answer e))
    else
      expected_answers.any (fun e =>
        let exp_norm := normalize_answer e
        pred_norm = exp_norm || floatCloseStr pred_norm exp_norm)

/-! ## `table_utils.format_table_token_efficient` -/

/-- A Python value as it can occur in a table cell or header: a string,
an integer, or `None` (enough to express the dynamic-typing behaviour
the claims are about: `str()` coercion succeeds on every value, while
`.strip()` exists only on strings). -/
inductive PyVal where
  | str (s : List Nat)
  | int (n : Int)
  | none
deriving DecidableEq

/-- Python `str(x)`. -/
def pyValStr : PyVal → List Nat
  | .str s => s
  | .int n => intStr n
  | .none => chars "None"

/-- Whether a value is a string (has the `.strip` method). -/
def PyVal.isStr : PyVal → Bool
  | .str _ => true
  | _ => false

/-- Python `h.strip()` as an attribute access: succeeds only on
strings; `none` models the `AttributeError` raised on any other
value. -/
def pyStripAttr : PyVal → Option (List Nat)
  | .str s => some (pyStripWs s)
  | _ => Option.none

/-- `[h.strip() for h in header]`: fails (raises) as soon as one
element is not a string. -/
def stripHeaders : List PyVal → Option (List (List Nat))
  | [] => some []
  | h :: t =>
    match pyStripAttr h, stripHeaders t with
    | some s, some rest => some (s :: rest)
    | _, _ => Option.none

/-- A table dict with `header` and `rows` keys
(`table.get("header", [])` / `table.get("rows", [])`). -/
structure PyTable where
  header : List PyVal
  rows : List (List PyVal)

/-- Python `str.zfill(width)`: pad with leading zeros to `width`,
keeping a leading sign in front of the padding. -/
def pyZfill (width : Nat) (s : List Nat) : List Nat :=
  match s with
  | c :: rest =>
    if c = 43 ∨ c = 45 then
      c :: List.replicate (width - 1 - rest.length) 48 ++ rest
    else List.replicate (width - s.length) 48 ++ s
  | [] => List.replicate width 48

/-- The date-normalization step of `clean_value` (lines 80–83 of
`table_utils.py`): when the value splits on `/` into exactly three
parts and the third has length 4, rebuild it as
`parts[2]-parts[0].zfill(2)-parts[1].zfill(2)`; otherwise leave the
value unchanged. -/
def dateStep (x : List Nat) : List Nat :=
  if 47 ∈ x ∧ (pySplitChar 47 x).length = 3 then
    match pySplitChar 47 x with
    | [p0, p1, p2] =>
      if p2.length = 4 then p2 ++ 45 :: pyZfill 2 p0 ++ 45 :: pyZfill 2 p1
      else x
    | _ => x
  else x

/-- `clean_value` (inner function of `format_table_token_efficient`):
`None` becomes the empty string; any other value is `str()`-coerced,
stripped, has newlines and the delimiter replaced by spaces and commas
removed, and finally goes through the date rule. -/
def clean_value (delim : List Nat) (x : PyVal) : List Nat :=
  match x with
  | .none => []
  | _ =>
    let v := pyStripWs (pyValStr x)
    let v := pyReplace [10] [32] v
    let v := pyReplace delim [32] v
    let v := pyReplace [44] [] v
    dateStep v

/-- The column-selection keyword list of line 97 of `table_utils.py`. -/
def colKeywords : List (List Nat) :=
  [chars "date", chars "year", chars "number", chars "count", chars "total",
   chars "amount", chars "value", chars "placing", chars "place", chars "rank",
   chars "position", chars "finish", chars "result"]

/-- Column selection when a question is given (lines 87–104): keep a
column when its header shares a word with the question or contains one
of the fixed keywords; fall back to all columns when fewer than two
survive.  Returns the kept headers together with their indices. -/
def colSelect (q : List Nat) (headers : List (List Nat)) :
    List (List Nat) × List Nat :=
  let qwords := pySplitWs (lowerL q)
  let keep := fun (h : List Nat) =>
    (pySplitWs (lowerL h)).any (fun w => qwords.contains w) ||
    colKeywords.any (fun kw => isSub kw (lowerL h))
  let idxs := (List.range headers.length).filter
    (fun i => keep (headers.getD i []))
  let kept := idxs.map (fun i => headers.getD i [])
  if kept.length < 2 then (headers, List.range headers.length)
  else (kept, idxs)

/-- Row filtering when a question is given and the table is larger than
`max_rows` (lines 110–123): keep rows whose space-joined text contains
a question word; fall back to the first `max_rows` rows when fewer than
ten survive. -/
def rowSelect (q : List Nat) (rows : List (List PyVal)) (max_rows : Nat) :
    List (List PyVal) :=
  let qwords := pySplitWs (lowerL q)
  let kept := rows.filter (fun row =>
    let row_text := lowerL (pyJoin [32] (row.map pyValStr))
    qwords.any (fun w => isSub w row_text))
  if kept.length < 10 then rows.take max_rows else kept.take max_rows

/-- `table_utils.format_table_token_efficient`: `none` models the
`AttributeError` raised by the header cleaning on a non-string header
element; otherwise the delimited text (lines joined by newline). -/
def format_table_token_efficient (table : PyTable) (question : Option (List Nat))
    (delim : List Nat) (max_rows : Nat) : Option (List Nat) :=
  match stripHeaders table.header with
  | Option.none => Option.none
  | some headers =>
    let rows := table.rows
    let sel := match question with
      | some q => colSelect q headers
      | Option.none => (headers, List.range headers.length)
    let relevant_rows := match question with
      | some q => if rows.length > max_rows then rowSelect q rows max_rows
                  else rows.take max_rows
      | Option.none => rows.take max_rows
    let header_line := pyJoin delim (sel.1.map (fun h => clean_value delim (.str h)))
    let row_lines := relevant_rows.map (fun row =>
      pyJoin delim ((sel.2.filter (fun i => i < row.length)).map
        (fun i => clean_value delim (row.getD i (.str [])))))
    some (pyJoin [10] (header_line :: row_lines))

/-! ## Spec-side definitions (written from the specification's wording,
for comparison with the source-derived definitions above) -/

/-- Spec wording for per-example correctness in `denotation_accuracy`:
the two sets of normalized tokens are exactly equal — same members in
both directions and same cardinality. -/
def exampleCorrectSpec (g p : List (List Nat)) : Prop :=
  (∀ x ∈ g.map normalize_token, x ∈ p.map normalize_token) ∧
  (∀ x ∈ p.map normalize_token, x ∈ g.map normalize_token) ∧
  (g.map normalize_token).toFinset.card = (p.map normalize_token).toFinset.card

instance exampleCorrectSpecDec (g p : List (List Nat)) :
    Decidable (exampleCorrectSpec g p) := by
  unfold exampleCorrectSpec; infer_instance

/-- Spec wording for `denotation_accuracy`: `correct_count / total_count`,
and exactly `0` for empty input. -/
def denotation_accuracy_spec (golds preds : List (List (List Nat))) : ℚ :=
  if golds.length = 0 then 0
  else (((golds.zip preds).filter
      (fun gp => decide (exampleCorrectSpec gp.1 gp.2))).length : ℚ) /
    (golds.length : ℚ)

/-- Spec wording for `split_prediction` (claim C6): the text itself —
not its stripped form — is normalized or split on the bar, then on the
comma, with trimming and dropping of empty pieces, and the single
normalized text is the fallback. -/
def split_prediction_spec (text : List Nat) (gold_count : Int) : List (List Nat) :=
  if gold_count ≤ 1 then [normalize_token text]
  else
    let pieces := ((pySplitChar 124 text).map pyStripWs).filter (fun x => x ≠ [])
    let pieces :=
      if pieces.length ≤ 1 then
        ((pySplitChar 44 text).map pyStripWs).filter (fun x => x ≠ [])
      else pieces
    if pieces = [] then [normalize_token text] else pieces.map normalize_token

/-- The date pattern claim C4 describes: one or two digits, a slash,
one or two digits, a slash, exactly four digits. -/
def claimedDatePattern (x : List Nat) : Bool :=
  match pySplitChar 47 x with
  | [a, b, c] =>
    (1 ≤ a.length && a.length ≤ 2 && a.all isDigitN) &&
    (1 ≤ b.length && b.length ≤ 2 && b.all isDigitN) &&
    (c.length == 4 && c.all isDigitN)
  | _ => false

/-! ## Claim theorems -/

/-- Claim C7: `denotation_accuracy` fails (raises through its `assert`)
exactly when the two sequences have different lengths, and produces a
value — never raises — for every equal-length pair. -/
theorem denotation_accuracy_some_iff_length_eq
    (golds preds : List (List (List Nat))) :
    (denotation_accuracy golds preds).isSome ↔ golds.length = preds.length := by
  unfold denotation_accuracy
  by_cases h : golds.length = preds.length <;> simp [h]

/-- Claim C9 counterexample: `normalize_token "0.0"` is `"0"`, not the
empty string (`rstrip("0")` stops at the decimal point), so it is equal
to `normalize_token "0"` and a predicted `"0.0"` does match a gold
`"0"` under `denotation_accuracy`. -/
theorem normalize_token_zero_counterexample :
    normalize_token (chars "0.0") = chars "0" ∧
    normalize_token (chars "0.0") ≠ [] ∧
    normalize_token (chars "0.0") = normalize_token (chars "0") ∧
    denotation_accuracy [[chars "0"]] [[chars "0.0"]] = some 1 := by
  refine ⟨by decide, by decide, by decide, ?_⟩
  have h : (([[chars "0"]].zip [[chars "0.0"]]).filter
      (fun gp => pySetEqNorm gp.1 gp.2)).length = 1 := by decide
  unfold denotation_accuracy
  simp only [h]
  norm_num

/-- Claim C9 (amended): for zero written with one to six fractional
zeros, `normalize_token` returns `"0"` — the same value as
`normalize_token "0"` — so such a prediction does compare equal to a
gold `"0"`; with seven or more fractional zeros the `Decimal` prints in
scientific notation (`0E-7`, …) instead. -/
theorem normalize_token_zero_decimal (n : Nat) (h1 : 1 ≤ n) (h2 : n ≤ 6) :
    normalize_token (48 :: 46 :: List.replicate n 48) = [48] := by
  interval_cases n <;> decide

/-- Witness for `normalize_token_zero_decimal` at `"0.00"`. -/
theorem normalize_token_zero_decimal_witness :
    normalize_token (chars "0.00") = [48] :=
  normalize_token_zero_decimal 2 (by decide) (by decide)

/-- Claim C2 counterexample: `normalize_token` is not idempotent.  On
`a".` the trailing-punctuation strip exposes a quote that a second pass
then strips; on `1.0e-7` the first pass yields `0.0000001`, which a
second pass re-renders as `1E-7` (the scientific-notation threshold of
`Decimal.__str__`). -/
theorem normalize_token_not_idempotent :
    normalize_token (normalize_token (chars "a\".")) ≠
      normalize_token (chars "a\".") ∧
    normalize_token (normalize_token (chars "1.0e-7")) ≠
      normalize_token (chars "1.0e-7") := by
  exact ⟨by decide, by decide⟩

/-- Claim C3 counterexample: on `"a,b"` the decimal parse (of `"ab"`)
fails and `normalize_token` returns `"a,b"` — the pre-comma-removal
string `s0`, not the comma-stripped, `%`/`$`-stripped value `t` the
claim describes. -/
theorem normalize_token_fallback_counterexample :
    dec_parse (t_of (chars "a,b")) = Option.none ∧
    normalize_token (chars "a,b") = chars "a,b" ∧
    t_of (chars "a,b") = chars "ab" ∧
    normalize_token (chars "a,b") ≠ t_of (chars "a,b") := by
  exact ⟨by decide, by decide, by decide, by decide⟩

/-- Claim C3 (amended): when the final decimal parse fails,
`normalize_token` returns `s0` — the string after quote stripping,
lowercasing, whitespace collapsing and trailing-punctuation stripping —
with its commas, `%` and `$` still in place (comma removal and `%`/`$`
stripping affect only the parsed string `t`, never the fallback). -/
theorem normalize_token_fallback (s : List Nat)
    (h : dec_parse (t_of s) = Option.none) :
    normalize_token s = s0_of s := by
  unfold normalize_token
  rw [h]

/-- Witness for `normalize_token_fallback` at `"hello world"`. -/
theorem normalize_token_fallback_witness :
    dec_parse (t_of (chars "hello world")) = Option.none ∧
    normalize_token (chars "hello world") = s0_of (chars "hello world") :=
  ⟨by decide, normalize_token_fallback (chars "hello world") (by decide)⟩

/-- Claim C5 counterexample: a row shorter than the header renders with
the missing cell dropped — the line is `x`, with one field, not `x|`
with an empty second field as the claim's empty-string treatment would
produce. -/
theorem short_row_counterexample :
    format_table_token_efficient
      ⟨[.str (chars "a"), .str (chars "b")], [[.str (chars "x")]]⟩
      Option.none (chars "|") 100 = some (chars "a|b" ++ 10 :: chars "x") ∧
    chars "a|b" ++ 10 :: chars "x" ≠ chars "a|b" ++ 10 :: chars "x|" := by
  exact ⟨by decide, by decide⟩

/-! ## Helper lemmas -/

theorem stripHeaders_eq_none_iff (hs : List PyVal) :
    stripHeaders hs = Option.none ↔ ∃ h ∈ hs, h.isStr = false := by
  induction hs with
  | nil => simp [stripHeaders]
  | cons h t ih =>
    cases h with
    | str s =>
      cases ht : stripHeaders t with
      | none =>
        simp only [stripHeaders, pyStripAttr, ht]
        constructor
        · intro _
          obtain ⟨x, hx, hxs⟩ := ih.mp ht
          exact ⟨x, List.mem_cons_of_mem _ hx, hxs⟩
        · intro _; trivial
      | some r =>
        simp only [stripHeaders, pyStripAttr, ht]
        constructor
        · intro hcontra; exact absurd hcontra (by simp)
        · rintro ⟨x, hx, hxs⟩
          rcases List.mem_cons.mp hx with rfl | hx2
          · exact absurd hxs (by simp [PyVal.isStr])
          · have := ih.mpr ⟨x, hx2, hxs⟩
            rw [this] at ht
            exact absurd ht (by simp)
    | int n =>
      constructor
      · intro _; exact ⟨.int n, List.mem_cons_self _ _, rfl⟩
      · intro _; rfl
    | none =>
      constructor
      · intro _; exact ⟨.none, List.mem_cons_self _ _, rfl⟩
      · intro _; rfl

theorem startsWithL_iff (pat l : List Nat) :
    startsWithL pat l = true ↔ ∃ suf, l = pat ++ suf := by
  induction pat generalizing l with
  | nil => simp [startsWithL]
  | cons a pa ih =>
    cases l with
    | nil => simp [startsWithL]
    | cons b lb =>
      simp only [startsWithL, Bool.and_eq_true, decide_eq_true_eq, ih,
        List.cons_append, List.cons.injEq]
      constructor
      · rintro ⟨rfl, suf, rfl⟩; exact ⟨suf, rfl, rfl⟩
      · rintro ⟨suf, rfl, rfl⟩; exact ⟨rfl, suf, rfl⟩

theorem isSub_iff (pat l : List Nat) :
    isSub pat l = true ↔ ∃ pre suf, l = pre ++ pat ++ suf := by
  induction l with
  | nil =>
    simp only [isSub, startsWithL_iff]
    constructor
    · rintro ⟨suf, h⟩; exact ⟨[], suf, h⟩
    · rintro ⟨pre, suf, h⟩
      refine ⟨[], ?_⟩
      cases pre <;> cases pat <;> simp_all
  | cons b lb ih =>
    simp only [isSub, Bool.or_eq_true, startsWithL_iff, ih]
    constructor
    · rintro (⟨suf, h⟩ | ⟨pre, suf, h⟩)
      · exact ⟨[], suf, by simpa using h⟩
      · exact ⟨b :: pre, suf, by simp [h]⟩
    · rintro ⟨pre, suf, h⟩
      cases pre with
      | nil => exact Or.inl ⟨suf, by simpa using h⟩
      | cons p ps =>
        simp only [List.cons_append, List.cons.injEq] at h
        exact Or.inr ⟨ps, suf, h.2⟩

theorem isSub_of_append (u pat l : List Nat)
    (h : isSub (u ++ pat) l = true) : isSub pat l = true := by
  rw [isSub_iff] at h ⊢
  obtain ⟨pre, suf, hl⟩ := h
  exact ⟨pre ++ u, suf, by simp [hl]⟩

theorem pySetEqNorm_iff (g p : List (List Nat)) :
    pySetEqNorm g p = true ↔ exampleCorrectSpec g p := by
  unfold pySetEqNorm exampleCorrectSpec
  rw [decide_eq_true_iff]
  constructor
  · intro h
    refine ⟨?_, ?_, by rw [h]⟩
    · intro x hx
      have := List.mem_toFinset.mpr hx
      rw [h] at this
      exact List.mem_toFinset.mp this
    · intro x hx
      have := List.mem_toFinset.mpr hx
      rw [← h] at this
      exact List.mem_toFinset.mp this
  · rintro ⟨h1, h2, _⟩
    apply Finset.Subset.antisymm
    · intro x hx
      exact List.mem_toFinset.mpr (h1 x (List.mem_toFinset.mp hx))
    · intro x hx
      exact List.mem_toFinset.mpr (h2 x (List.mem_toFinset.mp hx))

theorem pySetEqNorm_eq_decide (g p : List (List Nat)) :
    pySetEqNorm g p = decide (exampleCorrectSpec g p) := by
  cases hb : pySetEqNorm g p
  · have hns : ¬ exampleCorrectSpec g p := fun hs => by
      rw [(pySetEqNorm_iff g p).mpr hs] at hb
      exact Bool.true_eq_false.mp hb
    simp [hns]
  · simp [(pySetEqNorm_iff g p).mp hb]

/-! ## Claim theorems (continued) -/

/-- Claim C10: the header cleaning calls `.strip()` on every header
element without coercion, so any non-string header value makes
`format_table_token_efficient` raise (`none`), while tables whose
headers are all strings always produce output — non-string cell values
are `str()`-coerced and never fail. -/
theorem format_table_header_totality (table : PyTable)
    (question : Option (List Nat)) (delim : List Nat) (max_rows : Nat) :
    ((∃ h ∈ table.header, h.isStr = false) →
      format_table_token_efficient table question delim max_rows = Option.none) ∧
    ((∀ h ∈ table.header, h.isStr = true) →
      (format_table_token_efficient table question delim max_rows).isSome) := by
  constructor
  · intro hex
    unfold format_table_token_efficient
    rw [(stripHeaders_eq_none_iff table.header).mpr hex]
  · intro hall
    unfold format_table_token_efficient
    cases hh : stripHeaders table.header with
    | none =>
      obtain ⟨h, hmem, hstr⟩ := (stripHeaders_eq_none_iff table.header).mp hh
      rw [hall h hmem] at hstr
      exact absurd hstr (by simp)
    | some headers => simp

/-- Witness for `format_table_header_totality`: an integer header makes
the formatter fail; a string header with integer and `None` cells does
not. -/
theorem format_table_header_totality_witness :
    format_table_token_efficient ⟨[PyVal.int 7], [[PyVal.str (chars "x")]]⟩
      Option.none (chars "|") 3 = Option.none ∧
    (format_table_token_efficient
      ⟨[PyVal.str (chars "a")], [[PyVal.int 7, PyVal.none]]⟩
      Option.none (chars "|") 3).isSome :=
  ⟨(format_table_header_totality _ _ _ _).1 ⟨PyVal.int 7, by decide, by decide⟩,
   (format_table_header_totality _ _ _ _).2 (by decide)⟩

/-- Claim C1: for equal-length inputs, `denotation_accuracy` counts an
example as correct exactly when the normalized gold set and the
normalized predicted set are equal as sets (same members, same
cardinality), and returns `correct_count / total_count`, with `0` for
empty input. -/
theorem denotation_accuracy_eq_spec (golds preds : List (List (List Nat)))
    (h : golds.length = preds.length) :
    denotation_accuracy golds preds = some (denotation_accuracy_spec golds preds) := by
  unfold denotation_accuracy denotation_accuracy_spec
  rw [if_pos h]
  have hfilter : (golds.zip preds).filter (fun gp => pySetEqNorm gp.1 gp.2) =
      (golds.zip preds).filter (fun gp => decide (exampleCorrectSpec gp.1 gp.2)) :=
    List.filter_congr (fun gp _ => pySetEqNorm_eq_decide gp.1 gp.2)
  rw [hfilter]

/-- Witness for `denotation_accuracy_eq_spec`, with the spec value
evaluated: numeric canonicalization equates `1,000` and `1000`. -/
theorem denotation_accuracy_eq_spec_witness :
    denotation_accuracy [[chars "1,000"]] [[chars "1000"]] =
      some (denotation_accuracy_spec [[chars "1,000"]] [[chars "1000"]]) ∧
    denotation_accuracy [] [] = some (denotation_accuracy_spec [] []) ∧
    denotation_accuracy_spec [] [] = 0 :=
  ⟨denotation_accuracy_eq_spec _ _ rfl,
   denotation_accuracy_eq_spec [] [] rfl, rfl⟩

/-- Claim C8: an empty prediction or an empty gold list is always
incorrect; and when the normalized prediction contains `don't know`
(with or without the leading `i`), `is_answer_correct` is true exactly
when some gold answer's normalization contains `don't know` or
`unknown` — the string-equality and float branches are never
consulted. -/
theorem is_answer_correct_dont_know (p : List Nat) (golds : List (List Nat)) :
    is_answer_correct [] golds = false ∧
    is_answer_correct p [] = false ∧
    (p ≠ [] → golds ≠ [] → hasDontKnow (normalize_answer p) = true →
      (is_answer_correct p golds = true ↔
        ∃ g ∈ golds,
          (isSub (chars "don" ++ 39 :: chars "t know") (normalize_answer g) = true ∨
           isSub (chars "unknown") (normalize_answer g) = true))) := by
  refine ⟨by simp [is_answer_correct], by simp [is_answer_correct], ?_⟩
  intro hp hg hdk
  unfold is_answer_correct
  rw [if_neg (by simp [hp, hg]), if_pos hdk, List.any_eq_true]
  constructor
  · rintro ⟨g, hmem, hgdk⟩
    refine ⟨g, hmem, ?_⟩
    unfold goldDontKnow hasDontKnow at hgdk
    rcases Bool.or_eq_true_iff.mp hgdk with h2 | hunk
    · rcases Bool.or_eq_true_iff.mp h2 with hidk | hdk2
      · exact Or.inl (isSub_of_append (chars "i ") _ _ hidk)
      · exact Or.inl hdk2
    · exact Or.inr hunk
  · rintro ⟨g, hmem, hcase⟩
    refine ⟨g, hmem, ?_⟩
    unfold goldDontKnow hasDontKnow
    rcases hcase with hdk2 | hunk
    · simp [hdk2]
    · simp [hunk]

/-- Witness for `is_answer_correct_dont_know`: an abstaining prediction
against an `unknown` gold answer is accepted. -/
theorem is_answer_correct_dont_know_witness :
    is_answer_correct (chars "I don" ++ 39 :: chars "t know")
      [chars "unknown"] = true :=
  ((is_answer_correct_dont_know _ _).2.2 (by decide) (by decide)
      (by decide)).mpr
    ⟨chars "unknown", by decide, Or.inr (by decide)⟩

theorem pySplitChar_ne_nil (c : Nat) (l : List Nat) : pySplitChar c l ≠ [] := by
  cases l with
  | nil => simp [pySplitChar]
  | cons a r =>
    simp only [pySplitChar]
    split
    · simp
    · split <;> simp

theorem pyJoin_pySplitChar (c : Nat) (l : List Nat) :
    pyJoin [c] (pySplitChar c l) = l := by
  induction l with
  | nil => simp [pySplitChar, pyJoin]
  | cons a r ih =>
    simp only [pySplitChar]
    by_cases h : a = c
    · rw [if_pos h]
      cases hr : pySplitChar c r with
      | nil => exact absurd hr (pySplitChar_ne_nil c r)
      | cons p ps =>
        rw [hr] at ih
        show [] ++ [c] ++ pyJoin [c] (p :: ps) = a :: r
        rw [ih, h]
        rfl
    · rw [if_neg h]
      cases hr : pySplitChar c r with
      | nil => exact absurd hr (pySplitChar_ne_nil c r)
      | cons p ps =>
        rw [hr] at ih
        cases ps with
        | nil =>
          show a :: p = a :: r
          rw [show pyJoin [c] [p] = p from rfl] at ih
          rw [ih]
        | cons q qs =>
          show (a :: p) ++ [c] ++ pyJoin [c] (q :: qs) = a :: r
          rw [show pyJoin [c] (p :: q :: qs) =
            p ++ [c] ++ pyJoin [c] (q :: qs) from rfl] at ih
          simp only [List.cons_append, List.append_assoc] at ih ⊢
          rw [ih]

theorem not_mem_pySplitChar (c : Nat) (l w : List Nat)
    (hw : w ∈ pySplitChar c l) : c ∉ w := by
  induction l generalizing w with
  | nil =>
    simp only [pySplitChar, List.mem_singleton] at hw
    simp [hw]
  | cons a r ih =>
    simp only [pySplitChar] at hw
    by_cases h : a = c
    · rw [if_pos h] at hw
      rcases List.mem_cons.mp hw with rfl | hw2
      · simp
      · exact ih w hw2
    · rw [if_neg h] at hw
      cases hr : pySplitChar c r with
      | nil =>
        rw [hr] at hw
        simp only [List.mem_singleton] at hw
        subst hw
        simp [List.mem_singleton]
        exact fun hc => h hc.symm
      | cons p ps =>
        rw [hr] at hw
        rcases List.mem_cons.mp hw with rfl | hw2
        · intro hc
          rcases List.mem_cons.mp hc with hca | hcp
          · exact h hca.symm
          · exact ih p (by rw [hr]; exact List.mem_cons_self _ _) hcp
        · exact ih w (by rw [hr]; exact List.mem_cons_of_mem _ hw2)

theorem mem_pyZfill (w : Nat) (s : List Nat) (d : Nat)
    (hd : d ∈ pyZfill w s) : d = 48 ∨ d ∈ s := by
  cases s with
  | nil =>
    unfold pyZfill at hd
    exact Or.inl (List.eq_of_mem_replicate hd)
  | cons c rest =>
    replace hd : d ∈ (if c = 43 ∨ c = 45 then
        c :: List.replicate (w - 1 - rest.length) 48 ++ rest
      else List.replicate (w - (c :: rest).length) 48 ++ c :: rest) := hd
    by_cases hsign : c = 43 ∨ c = 45
    · rw [if_pos hsign] at hd
      rcases List.mem_cons.mp hd with rfl | h2
      · exact Or.inr (List.mem_cons_self _ _)
      · rcases List.mem_append.mp h2 with hrep | hrest
        · exact Or.inl (List.eq_of_mem_replicate hrep)
        · exact Or.inr (List.mem_cons_of_mem _ hrest)
    · rw [if_neg hsign] at hd
      rcases List.mem_append.mp hd with hrep | hrest
      · exact Or.inl (List.eq_of_mem_replicate hrep)
      · exact Or.inr hrest

/-- Claim C4 counterexample: the date rule has no digit requirement —
`ab/cd/efgh` does not match the claimed `<1-2 digits>/<1-2 digits>/<4
digits>` pattern, yet it is rewritten to `efgh-ab-cd`, both in
isolation and through `format_table_token_efficient`. -/
theorem date_rule_counterexample :
    claimedDatePattern (chars "ab/cd/efgh") = false ∧
    dateStep (chars "ab/cd/efgh") = chars "efgh-ab-cd" ∧
    dateStep (chars "ab/cd/efgh") ≠ chars "ab/cd/efgh" ∧
    format_table_token_efficient
      ⟨[.str (chars "h")], [[.str (chars "ab/cd/efgh")]]⟩
      Option.none (chars "|") 100 = some (chars "h" ++ 10 :: chars "efgh-ab-cd") := by
  exact ⟨by decide, by decide, by decide, by decide⟩

/-- Claim C4 (amended): the date rule rewrites a value exactly when the
value splits on `/` into three parts whose third part has length four —
with no digit requirement and no length bound on the first two parts —
and the rewrite is `parts[2]-parts[0].zfill(2)-parts[1].zfill(2)`. -/
theorem dateStep_rewrites_iff (x p0 p1 p2 : List Nat) :
    (dateStep x ≠ x ↔ ∃ a b c, pySplitChar 47 x = [a, b, c] ∧ c.length = 4) ∧
    (pySplitChar 47 x = [p0, p1, p2] → p2.length = 4 →
      dateStep x = p2 ++ 45 :: pyZfill 2 p0 ++ 45 :: pyZfill 2 p1) := by
  have hmem47 : ∀ a b c, pySplitChar 47 x = [a, b, c] → 47 ∈ x := by
    intro a b c hsp
    have hj := pyJoin_pySplitChar 47 x
    rw [hsp] at hj
    rw [← hj]
    show 47 ∈ a ++ [47] ++ pyJoin [47] [b, c]
    simp
  have hrw : ∀ a b c, pySplitChar 47 x = [a, b, c] → c.length = 4 →
      dateStep x = c ++ 45 :: pyZfill 2 a ++ 45 :: pyZfill 2 b := by
    intro a b c hsp hlen
    unfold dateStep
    rw [if_pos ⟨hmem47 a b c hsp, by rw [hsp]; rfl⟩]
    simp only [hsp]
    rw [if_pos hlen]
  constructor
  · constructor
    · intro hne
      by_contra hnot
      push_neg at hnot
      apply hne
      unfold dateStep
      split
      · next hcond =>
        obtain ⟨a, b, c, habc⟩ := List.length_eq_three.mp hcond.2
        simp only [habc]
        exact if_neg (hnot a b c habc)
      · rfl
    · rintro ⟨a, b, c, hsp, hlen⟩
      rw [hrw a b c hsp hlen]
      intro heq
      have hmem := hmem47 a b c hsp
      rw [← heq] at hmem
      have hc : (47 : Nat) ∉ c :=
        not_mem_pySplitChar 47 x c (by rw [hsp]; simp)
      have ha : (47 : Nat) ∉ a :=
        not_mem_pySplitChar 47 x a (by rw [hsp]; simp)
      have hb : (47 : Nat) ∉ b :=
        not_mem_pySplitChar 47 x b (by rw [hsp]; simp)
      rcases List.mem_append.mp hmem with h | h
      · rcases List.mem_append.mp h with h | h
        · exact hc h
        · rcases List.mem_cons.mp h with h45 | h
          · norm_num at h45
          · rcases mem_pyZfill 2 a 47 h with h48 | hina
            · norm_num at h48
            · exact ha hina
      · rcases List.mem_cons.mp h with h45 | h
        · norm_num at h45
        · rcases mem_pyZfill 2 b 47 h with h48 | hinb
          · norm_num at h48
          · exact hb hinb
  · exact fun hsp hlen => hrw p0 p1 p2 hsp hlen

/-- Witness for `dateStep_rewrites_iff`: `3/4/1995` becomes
`1995-03-04`. -/
theorem dateStep_rewrites_iff_witness :
    dateStep (chars "3/4/1995") = chars "1995-03-04" :=
  (dateStep_rewrites_iff (chars "3/4/1995") (chars "3") (chars "4")
      (chars "1995")).2 (by decide) (by decide)

theorem filter_range_map_getD {α : Type} (n : Nat) (row : List α) (d : α) :
    ((List.range n).filter (fun i => decide (i < row.length))).map
      (fun i => row.getD i d) = row.take n := by
  induction n with
  | zero => simp
  | succ n ih =>
    rw [List.range_succ, List.filter_append, List.map_append, ih]
    by_cases hn : n < row.length
    · have hfil : List.filter (fun i => decide (i < row.length)) [n] = [n] := by
        simp [hn]
      rw [hfil, List.take_succ]
      simp [List.getD, hn, List.getElem?_eq_getElem hn]
    · have hfil : List.filter (fun i => decide (i < row.length)) [n] = [] := by
        simp [hn]
      rw [hfil]
      have hle : row.length ≤ n := Nat.le_of_not_lt hn
      rw [List.take_of_length_le hle, List.take_of_length_le (Nat.le_succ_of_le hle)]
      simp

/-- Claim C5 (amended): with no question, the formatter never fails on
malformed rows; each rendered row is the cleaned prefix of the row cut
at the header width — so extra cells of long rows are ignored, and the
missing cells of short rows are dropped from the line (not rendered as
empty fields). -/
theorem format_table_short_long_rows (table : PyTable) (delim : List Nat)
    (max_rows : Nat) (headers : List (List Nat))
    (h : stripHeaders table.header = some headers) :
    format_table_token_efficient table Option.none delim max_rows =
      some (pyJoin [10]
        (pyJoin delim (headers.map (fun hd => clean_value delim (.str hd))) ::
          (table.rows.take max_rows).map (fun row =>
            pyJoin delim ((row.take headers.length).map (clean_value delim))))) := by
  have hrow : ∀ row : List PyVal,
      ((List.range headers.length).filter (fun i => decide (i < row.length))).map
        (fun i => clean_value delim (row.getD i (.str []))) =
      (row.take headers.length).map (clean_value delim) := by
    intro row
    rw [show (fun i => clean_value delim (row.getD i (PyVal.str []))) =
        (clean_value delim) ∘ (fun i => row.getD i (.str [])) from rfl]
    rw [← List.map_map, filter_range_map_getD]
  simp only [format_table_token_efficient, h]
  simp only [hrow]

/-- Witness for `format_table_short_long_rows`: a two-column table with
a one-cell row and a three-cell row renders as `a|b`, `x`, `p|q`. -/
theorem format_table_short_long_rows_witness :
    format_table_token_efficient
      ⟨[.str (chars "a"), .str (chars "b")],
       [[.str (chars "x")],
        [.str (chars "p"), .str (chars "q"), .str (chars "r")]]⟩
      Option.none (chars "|") 100 =
      some (pyJoin [10]
        (pyJoin (chars "|") ([chars "a", chars "b"].map
            (fun hd => clean_value (chars "|") (.str hd))) ::
          (([[PyVal.str (chars "x")],
             [PyVal.str (chars "p"), PyVal.str (chars "q"),
              PyVal.str (chars "r")]].take 100).map (fun row =>
            pyJoin (chars "|") ((row.take 2).map (clean_value (chars "|"))))))) ∧
    format_table_token_efficient
      ⟨[.str (chars "a"), .str (chars "b")],
       [[.str (chars "x")],
        [.str (chars "p"), .str (chars "q"), .str (chars "r")]]⟩
      Option.none (chars "|") 100 =
      some (chars "a|b" ++ 10 :: chars "x" ++ 10 :: chars "p|q") :=
  ⟨format_table_short_long_rows _ _ _ _ (by decide), by decide⟩

/-! ## strip lemmas -/

theorem dropWhile_dropWhile (p : Nat → Bool) (l : List Nat) :
    (l.dropWhile p).dropWhile p = l.dropWhile p := by
  induction l with
  | nil => rfl
  | cons a r ih =>
    by_cases h : p a
    · rw [List.dropWhile_cons_of_pos h, ih]
    · rw [List.dropWhile_cons_of_neg h, List.dropWhile_cons_of_neg h]

theorem dropRunR_eq_nil_iff (p : Nat → Bool) (l : List Nat) :
    dropRunR p l = [] ↔ ∀ x ∈ l, p x = true := by
  unfold dropRunR
  rw [List.reverse_eq_nil_iff, List.dropWhile_eq_nil_iff]
  constructor
  · intro h x hx; exact h x (List.mem_reverse.mpr hx)
  · intro h x hx; exact h x (List.mem_reverse.mp hx)

theorem dropRunR_cons (p : Nat → Bool) (a : Nat) (r : List Nat) :
    dropRunR p (a :: r) =
      if p a ∧ dropRunR p r = [] then [] else a :: dropRunR p r := by
  unfold dropRunR
  rw [List.reverse_cons, List.dropWhile_append]
  by_cases hr : (r.reverse.dropWhile p).isEmpty
  · have hrnil : (r.reverse.dropWhile p).reverse = [] := by
      rw [List.isEmpty_iff] at hr
      rw [hr]; rfl
    rw [if_pos hr]
    by_cases ha : p a
    · rw [if_pos ⟨ha, hrnil⟩, List.dropWhile_cons_of_pos ha]
      rfl
    · rw [if_neg (fun hc => ha hc.1), List.dropWhile_cons_of_neg ha, hrnil]
      rfl
  · have hrne : (r.reverse.dropWhile p).reverse ≠ [] := by
      simp only [ne_eq, List.reverse_eq_nil_iff]
      intro hcon
      rw [hcon] at hr
      exact hr rfl
    rw [if_neg hr, if_neg (fun hc => hrne hc.2), List.reverse_append]
    rfl

theorem dropRunR_dropRunR (p : Nat → Bool) (l : List Nat) :
    dropRunR p (dropRunR p l) = dropRunR p l := by
  unfold dropRunR
  rw [List.reverse_reverse, dropWhile_dropWhile]

theorem dropRun_comm (p : Nat → Bool) (l : List Nat) :
    dropRunL p (dropRunR p l) = dropRunR p (dropRunL p l) := by
  induction l with
  | nil => rfl
  | cons a r ih =>
    by_cases ha : p a
    · have hl : dropRunL p (a :: r) = dropRunL p r := List.dropWhile_cons_of_pos ha
      rw [hl, dropRunR_cons]
      by_cases hr : dropRunR p r = []
      · rw [if_pos ⟨ha, hr⟩]
        rw [hr] at ih
        exact ih.symm ▸ rfl
      · rw [if_neg (fun hc => hr hc.2)]
        have : dropRunL p (a :: dropRunR p r) = dropRunL p (dropRunR p r) := by
          unfold dropRunL
          exact List.dropWhile_cons_of_pos ha
        rw [this, ih]
    · have hl : dropRunL p (a :: r) = a :: r := List.dropWhile_cons_of_neg ha
      rw [hl, dropRunR_cons]
      rw [if_neg (fun hc => ha hc.1)]
      unfold dropRunL
      rw [List.dropWhile_cons_of_neg ha]

theorem pyStrip_idem (p : Nat → Bool) (l : List Nat) :
    pyStrip p (pyStrip p l) = pyStrip p l := by
  unfold pyStrip
  have h1 : dropRunL p (dropRunR p (dropRunL p l)) = dropRunR p (dropRunL p l) := by
    rw [dropRun_comm]
    have : dropRunL p (dropRunL p l) = dropRunL p l := dropWhile_dropWhile p l
    rw [this]
  rw [h1, dropRunR_dropRunR]

theorem pyStrip_dropRunR_absorb (p : Nat → Bool) (l : List Nat) :
    pyStrip p (dropRunR p l) = pyStrip p l := by
  unfold pyStrip
  rw [dropRun_comm, dropRunR_dropRunR]

/-! ## split/trim invariance under outer stripping (claim C6) -/

/-- Trimmed nonempty pieces of a single-character split: the common
shape of the two splitting steps of `split_prediction`. -/
def trimPieces (c : Nat) (l : List Nat) : List (List Nat) :=
  ((pySplitChar c l).map pyStripWs).filter (fun x => x ≠ [])

theorem pyStripWs_cons_ws (a : Nat) (h : List Nat) (ha : pyWs a = true) :
    pyStripWs (a :: h) = pyStripWs h := by
  unfold pyStripWs pyStrip dropRunL
  rw [List.dropWhile_cons_of_pos ha]

theorem pySplitChar_no_sep (c : Nat) (l : List Nat)
    (h : ∀ x ∈ l, x ≠ c) : pySplitChar c l = [l] := by
  induction l with
  | nil => rfl
  | cons a r ih =>
    simp only [pySplitChar]
    rw [if_neg (h a (List.mem_cons_self _ _))]
    rw [ih (fun x hx => h x (List.mem_cons_of_mem _ hx))]

/-- Tail modifier: apply `f` to the last piece only. -/
def modLast (f : List Nat → List Nat) : List (List Nat) → List (List Nat)
  | [] => []
  | [w] => [f w]
  | w :: ws => w :: modLast f ws

theorem pySplitChar_dropRunR (c : Nat) (hc : pyWs c = false) (l : List Nat) :
    pySplitChar c (dropRunR pyWs l) =
      modLast (dropRunR pyWs) (pySplitChar c l) := by
  induction l with
  | nil => rfl
  | cons a r ih =>
    rw [dropRunR_cons]
    by_cases hcase : pyWs a = true ∧ dropRunR pyWs r = []
    · rw [if_pos hcase]
      have hanec : a ≠ c := fun hac => by rw [hac] at hcase; rw [hcase.1] at hc; cases hc
      have hrall : ∀ x ∈ r, pyWs x = true := (dropRunR_eq_nil_iff pyWs r).mp hcase.2
      have hrnoc : ∀ x ∈ r, x ≠ c := fun x hx hxc => by
        have hxw := hrall x hx
        rw [hxc] at hxw
        rw [hxw] at hc
        cases hc
      have hsplit : pySplitChar c (a :: r) = [a :: r] := by
        simp only [pySplitChar]
        rw [if_neg hanec, pySplitChar_no_sep c r hrnoc]
      rw [hsplit]
      show pySplitChar c [] = [dropRunR pyWs (a :: r)]
      rw [dropRunR_cons, if_pos hcase]
      rfl
    · rw [if_neg hcase]
      by_cases hac : a = c
      · have hsplit2 : pySplitChar c (a :: dropRunR pyWs r) =
            [] :: pySplitChar c (dropRunR pyWs r) := by
          simp only [pySplitChar]
          rw [if_pos hac]
        rw [hsplit2, ih]
        have hsplit3 : pySplitChar c (a :: r) = [] :: pySplitChar c r := by
          simp only [pySplitChar]
          rw [if_pos hac]
        rw [hsplit3]
        cases hs : pySplitChar c r with
        | nil => exact absurd hs (pySplitChar_ne_nil c r)
        | cons p ps =>
          cases ps with
          | nil => rfl
          | cons q qs => rfl
      · cases hs : pySplitChar c r with
        | nil => exact absurd hs (pySplitChar_ne_nil c r)
        | cons p ps =>
          cases ps with
          | nil =>
            have hrp : r = p := by
              have hj := pyJoin_pySplitChar c r
              rw [hs] at hj
              exact hj.symm
            rw [hs] at ih
            have hsplit4 : pySplitChar c (a :: dropRunR pyWs r) =
                (a :: (modLast (dropRunR pyWs) [p]).headI) ::
                  (modLast (dropRunR pyWs) [p]).tail := by
              simp only [pySplitChar]
              rw [if_neg hac, ih]
              rfl
            rw [hsplit4]
            have hsplit5 : pySplitChar c (a :: r) = [a :: p] := by
              simp only [pySplitChar]
              rw [if_neg hac, hs]
            rw [hsplit5]
            show [a :: dropRunR pyWs p] = [dropRunR pyWs (a :: p)]
            rw [dropRunR_cons]
            rw [if_neg (by rw [← hrp]; exact hcase)]
          | cons q qs =>
            rw [hs] at ih
            have hsplit6 : pySplitChar c (a :: dropRunR pyWs r) =
                (a :: p) :: modLast (dropRunR pyWs) (q :: qs) := by
              simp only [pySplitChar]
              rw [if_neg hac, ih]
              rfl
            rw [hsplit6]
            have hsplit7 : pySplitChar c (a :: r) = (a :: p) :: q :: qs := by
              simp only [pySplitChar]
              rw [if_neg hac, hs]
            rw [hsplit7]
            rfl

theorem map_pyStripWs_modLast (L : List (List Nat)) :
    (modLast (dropRunR pyWs) L).map pyStripWs = L.map pyStripWs := by
  induction L with
  | nil => rfl
  | cons w ws ih =>
    cases ws with
    | nil =>
      show [pyStripWs (dropRunR pyWs w)] = [pyStripWs w]
      unfold pyStripWs
      rw [pyStrip_dropRunR_absorb]
    | cons v vs =>
      show pyStripWs w :: (modLast (dropRunR pyWs) (v :: vs)).map pyStripWs =
        pyStripWs w :: (v :: vs).map pyStripWs
      rw [ih]

theorem trimPieces_dropRunR (c : Nat) (hc : pyWs c = false) (l : List Nat) :
    trimPieces c (dropRunR pyWs l) = trimPieces c l := by
  unfold trimPieces
  rw [pySplitChar_dropRunR c hc, map_pyStripWs_modLast]

theorem trimPieces_dropRunL (c : Nat) (hc : pyWs c = false) (l : List Nat) :
    trimPieces c (dropRunL pyWs l) = trimPieces c l := by
  induction l with
  | nil => rfl
  | cons a r ih =>
    by_cases ha : pyWs a = true
    · have hl : dropRunL pyWs (a :: r) = dropRunL pyWs r :=
        List.dropWhile_cons_of_pos ha
      rw [hl, ih]
      have hanec : a ≠ c := fun hac => by rw [hac] at ha; rw [ha] at hc; cases hc
      cases hs : pySplitChar c r with
      | nil => exact absurd hs (pySplitChar_ne_nil c r)
      | cons p ps =>
        have hsplit : pySplitChar c (a :: r) = (a :: p) :: ps := by
          simp only [pySplitChar]
          rw [if_neg hanec, hs]
        unfold trimPieces
        rw [hsplit, hs]
        show ((pyStripWs p) :: ps.map pyStripWs).filter (fun x => x ≠ []) =
          ((pyStripWs (a :: p)) :: ps.map pyStripWs).filter (fun x => x ≠ [])
        rw [pyStripWs_cons_ws a p ha]
    · have hl : dropRunL pyWs (a :: r) = a :: r :=
        List.dropWhile_cons_of_neg (by simp [ha])
      rw [hl]

theorem trimPieces_pyStripWs (c : Nat) (hc : pyWs c = false) (l : List Nat) :
    trimPieces c (pyStripWs l) = trimPieces c l := by
  unfold pyStripWs pyStrip
  rw [trimPieces_dropRunR c hc, trimPieces_dropRunL c hc]

theorem trimPieces_pyStripWs_raw (c : Nat) (hc : pyWs c = false) (l : List Nat) :
    ((pySplitChar c (pyStripWs l)).map pyStripWs).filter (fun x => x ≠ []) =
      ((pySplitChar c l).map pyStripWs).filter (fun x => x ≠ []) :=
  trimPieces_pyStripWs c hc l

theorem s0_of_pyStripWs (s : List Nat) : s0_of (pyStripWs s) = s0_of s := by
  unfold s0_of pyStripWs
  rw [pyStrip_idem]

theorem normalize_token_pyStripWs (s : List Nat) :
    normalize_token (pyStripWs s) = normalize_token s := by
  unfold normalize_token t_of
  rw [s0_of_pyStripWs]

/-- Claim C6: `split_prediction` behaves exactly as the specification
describes on the raw text — a single normalized token for
`gold_count ≤ 1`, otherwise the bar split with trimming and dropping of
empties, the comma re-split when at most one piece survives, and the
single normalized text as final fallback. -/
theorem split_prediction_eq_spec (text : List Nat) (gold_count : Int) :
    split_prediction text gold_count = split_prediction_spec text gold_count := by
  simp only [split_prediction, split_prediction_spec,
    trimPieces_pyStripWs_raw 124 (by decide),
    trimPieces_pyStripWs_raw 44 (by decide),
    normalize_token_pyStripWs]
  by_cases hg : gold_count ≤ 1
  · rw [if_pos hg, if_pos hg]
  · rw [if_neg hg, if_neg hg]
    split_ifs with h1 h2 <;> first | rfl | simp_all

/-! ## Word-structure lemmas for the idempotence of the fallback path
(claim C2) -/

/-- All members are nonempty whitespace-free words — the invariant of
`str.split()` output. -/
def goodWords (ws : List (List Nat)) : Prop :=
  ∀ w ∈ ws, w ≠ [] ∧ ∀ c ∈ w, pyWs c = false

theorem pySplitWs_singleton (c : Nat) :
    pySplitWs [c] = if pyWs c then [] else [[c]] := rfl

theorem pySplitWs_cons_cons (c d : Nat) (rd : List Nat) :
    pySplitWs (c :: d :: rd) =
      if pyWs c then pySplitWs (d :: rd)
      else if pyWs d then [c] :: pySplitWs (d :: rd)
      else
        match pySplitWs (d :: rd) with
        | w :: ws => (c :: w) :: ws
        | [] => [[c]] := rfl

theorem pySplitWs_good (l : List Nat) : goodWords (pySplitWs l) := by
  induction l with
  | nil => intro w hw; simp [pySplitWs] at hw
  | cons c r ih =>
    intro w hw
    cases r with
    | nil =>
      rw [pySplitWs_singleton] at hw
      by_cases hc : pyWs c = true
      · rw [if_pos hc] at hw
        exact absurd hw (List.not_mem_nil w)
      · have hc' : pyWs c = false := by simpa using hc
        rw [if_neg hc] at hw
        simp only [List.mem_singleton] at hw
        subst hw
        refine ⟨by simp, ?_⟩
        intro x hx
        simp only [List.mem_singleton] at hx
        subst hx
        exact hc'
    | cons d rd =>
      rw [pySplitWs_cons_cons] at hw
      by_cases hc : pyWs c = true
      · rw [if_pos hc] at hw
        exact ih w hw
      · have hc' : pyWs c = false := by simpa using hc
        rw [if_neg hc] at hw
        by_cases hd : pyWs d = true
        · rw [if_pos hd] at hw
          rcases List.mem_cons.mp hw with rfl | hw2
          · refine ⟨by simp, ?_⟩
            intro x hx
            simp only [List.mem_singleton] at hx
            subst hx
            exact hc'
          · exact ih w hw2
        · rw [if_neg hd] at hw
          cases hrest : pySplitWs (d :: rd) with
          | nil =>
            rw [hrest] at hw
            simp only [List.mem_singleton] at hw
            subst hw
            refine ⟨by simp, ?_⟩
            intro x hx
            simp only [List.mem_singleton] at hx
            subst hx
            exact hc'
          | cons w0 ws0 =>
            rw [hrest] at hw
            rcases List.mem_cons.mp hw with rfl | hw2
            · have hw0 := ih w0 (by rw [hrest]; exact List.mem_cons_self _ _)
              refine ⟨by simp, ?_⟩
              intro x hx
              rcases List.mem_cons.mp hx with rfl | hx2
              · exact hc'
              · exact hw0.2 x hx2
            · exact ih w (by rw [hrest]; exact List.mem_cons_of_mem _ hw2)

theorem mem_pySplitWs (l : List Nat) (w : List Nat) (hw : w ∈ pySplitWs l)
    (c : Nat) (hc : c ∈ w) : c ∈ l := by
  induction l generalizing w with
  | nil => simp [pySplitWs] at hw
  | cons a r ih =>
    cases r with
    | nil =>
      rw [pySplitWs_singleton] at hw
      by_cases ha : pyWs a = true
      · rw [if_pos ha] at hw
        exact absurd hw (List.not_mem_nil w)
      · rw [if_neg ha] at hw
        simp only [List.mem_singleton] at hw
        subst hw
        simp only [List.mem_singleton] at hc
        subst hc
        exact List.mem_cons_self _ _
    | cons d rd =>
      rw [pySplitWs_cons_cons] at hw
      by_cases ha : pyWs a = true
      · rw [if_pos ha] at hw
        exact List.mem_cons_of_mem _ (ih w hw hc)
      · rw [if_neg ha] at hw
        by_cases hd : pyWs d = true
        · rw [if_pos hd] at hw
          rcases List.mem_cons.mp hw with rfl | hw2
          · simp only [List.mem_singleton] at hc
            subst hc
            exact List.mem_cons_self _ _
          · exact List.mem_cons_of_mem _ (ih w hw2 hc)
        · rw [if_neg hd] at hw
          cases hrest : pySplitWs (d :: rd) with
          | nil =>
            rw [hrest] at hw
            simp only [List.mem_singleton] at hw
            subst hw
            simp only [List.mem_singleton] at hc
            subst hc
            exact List.mem_cons_self _ _
          | cons w0 ws0 =>
            rw [hrest] at hw
            rcases List.mem_cons.mp hw with rfl | hw2
            · rcases List.mem_cons.mp hc with rfl | hcw0
              · exact List.mem_cons_self _ _
              · exact List.mem_cons_of_mem _
                  (ih w0 (by rw [hrest]; exact List.mem_cons_self _ _) hcw0)
            · exact List.mem_cons_of_mem _
                (ih w (by rw [hrest]; exact List.mem_cons_of_mem _ hw2) hc)

theorem pySplitWs_word (w : List Nat) (hne : w ≠ [])
    (hnw : ∀ c ∈ w, pyWs c = false) : pySplitWs w = [w] := by
  induction w with
  | nil => exact absurd rfl hne
  | cons c r ih =>
    have hc : pyWs c = false := hnw c (List.mem_cons_self _ _)
    cases r with
    | nil =>
      rw [pySplitWs_singleton, if_neg (by simp [hc])]
    | cons d rd =>
      have hd : pyWs d = false :=
        hnw d (List.mem_cons_of_mem _ (List.mem_cons_self _ _))
      rw [pySplitWs_cons_cons, if_neg (by simp [hc]), if_neg (by simp [hd])]
      rw [ih (by simp) (fun x hx => hnw x (List.mem_cons_of_mem _ hx))]

theorem pySplitWs_ws_cons (t : List Nat) :
    pySplitWs (32 :: t) = pySplitWs t := by
  cases t with
  | nil => rw [pySplitWs_singleton, if_pos (show pyWs 32 = true from rfl)]; rfl
  | cons u tu => rw [pySplitWs_cons_cons, if_pos (show pyWs 32 = true from rfl)]

theorem pySplitWs_word_sep (w t : List Nat) (hne : w ≠ [])
    (hnw : ∀ c ∈ w, pyWs c = false) :
    pySplitWs (w ++ 32 :: t) = w :: pySplitWs t := by
  induction w with
  | nil => exact absurd rfl hne
  | cons c r ih =>
    have hc : pyWs c = false := hnw c (List.mem_cons_self _ _)
    cases r with
    | nil =>
      show pySplitWs (c :: 32 :: t) = [c] :: pySplitWs t
      rw [pySplitWs_cons_cons, if_neg (by simp [hc]),
        if_pos (show pyWs 32 = true from rfl), pySplitWs_ws_cons]
    | cons e re =>
      have he : pyWs e = false :=
        hnw e (List.mem_cons_of_mem _ (List.mem_cons_self _ _))
      have hih : pySplitWs ((e :: re) ++ 32 :: t) = (e :: re) :: pySplitWs t :=
        ih (by simp) (fun x hx => hnw x (List.mem_cons_of_mem _ hx))
      show pySplitWs (c :: e :: (re ++ 32 :: t)) = (c :: e :: re) :: pySplitWs t
      rw [pySplitWs_cons_cons, if_neg (by simp [hc]), if_neg (by simp [he])]
      have hih2 : pySplitWs (e :: (re ++ 32 :: t)) = (e :: re) :: pySplitWs t := by
        simpa [List.cons_append] using hih
      rw [hih2]

theorem pyJoin_snoc (sep : List Nat) (xs : List (List Nat)) (x : List Nat)
    (h : xs ≠ []) :
    pyJoin sep (xs ++ [x]) = pyJoin sep xs ++ sep ++ x := by
  induction xs with
  | nil => exact absurd rfl h
  | cons a as ih =>
    cases as with
    | nil => rfl
    | cons b bs =>
      show pyJoin sep (a :: ((b :: bs) ++ [x])) = _
      have hstep : pyJoin sep (a :: ((b :: bs) ++ [x])) =
          a ++ sep ++ pyJoin sep ((b :: bs) ++ [x]) := rfl
      rw [hstep, ih (by simp)]
      show a ++ sep ++ (pyJoin sep (b :: bs) ++ sep ++ x) =
        (a ++ sep ++ pyJoin sep (b :: bs)) ++ sep ++ x
      simp [List.append_assoc]

theorem pyJoin_reverse (ws : List (List Nat)) :
    (pyJoin [32] ws).reverse = pyJoin [32] ((ws.map List.reverse).reverse) := by
  induction ws with
  | nil => rfl
  | cons w vs ih =>
    cases vs with
    | nil => rfl
    | cons v vs2 =>
      show (w ++ [32] ++ pyJoin [32] (v :: vs2)).reverse = _
      rw [List.reverse_append, List.reverse_append, ih]
      have hm : ((w :: v :: vs2).map List.reverse).reverse =
          (((v :: vs2).map List.reverse).reverse) ++ [w.reverse] := by simp
      rw [hm, pyJoin_snoc _ _ _ (by simp)]
      show pyJoin [32] (((v :: vs2).map List.reverse).reverse) ++
          ([32].reverse ++ w.reverse) = _
      simp [List.append_assoc]

theorem goodWords_reverse (ws : List (List Nat)) (h : goodWords ws) :
    goodWords ((ws.map List.reverse).reverse) := by
  intro w hw
  rw [List.mem_reverse, List.mem_map] at hw
  obtain ⟨w0, hw0, rfl⟩ := hw
  obtain ⟨hne, hchars⟩ := h w0 hw0
  refine ⟨by simpa using hne, ?_⟩
  intro c hc
  exact hchars c (List.mem_reverse.mp hc)

theorem pySplitWs_pyJoin (ws : List (List Nat)) (h : goodWords ws) :
    pySplitWs (pyJoin [32] ws) = ws := by
  induction ws with
  | nil => rfl
  | cons w vs ih =>
    obtain ⟨hne, hchars⟩ := h w (List.mem_cons_self _ _)
    have hvs : goodWords vs := fun x hx => h x (List.mem_cons_of_mem _ hx)
    cases vs with
    | nil => exact pySplitWs_word w hne hchars
    | cons v vs2 =>
      show pySplitWs (w ++ [32] ++ pyJoin [32] (v :: vs2)) = w :: v :: vs2
      rw [List.append_assoc, List.singleton_append]
      rw [pySplitWs_word_sep w _ hne hchars, ih hvs]

theorem dropWhile_pyJoin (p : Nat → Bool) (hp : p 32 = true)
    (ws : List (List Nat)) (h : goodWords ws) :
    ∃ ws', goodWords ws' ∧
      (pyJoin [32] ws).dropWhile p = pyJoin [32] ws' := by
  induction ws with
  | nil => exact ⟨[], fun w hw => absurd hw (List.not_mem_nil w), rfl⟩
  | cons w vs ih =>
    obtain ⟨hne, hchars⟩ := h w (List.mem_cons_self _ _)
    have hvs : goodWords vs := fun x hx => h x (List.mem_cons_of_mem _ hx)
    cases vs with
    | nil =>
      by_cases hdw : w.dropWhile p = []
      · refine ⟨[], fun x hx => absurd hx (List.not_mem_nil x), ?_⟩
        show w.dropWhile p = pyJoin [32] []
        rw [hdw]
        rfl
      · refine ⟨[w.dropWhile p], ?_, rfl⟩
        intro x hx
        simp only [List.mem_singleton] at hx
        subst hx
        refine ⟨hdw, ?_⟩
        intro c hc
        exact hchars c ((List.dropWhile_sublist (p := p) (l := w)).subset hc)
    | cons v vs2 =>
      obtain ⟨ws', hgood', heq'⟩ := ih hvs
      show ∃ ws', goodWords ws' ∧
        ((w ++ [32]) ++ pyJoin [32] (v :: vs2)).dropWhile p = pyJoin [32] ws'
      rw [List.dropWhile_append]
      by_cases hdw : w.dropWhile p = []
      · have hfirst : ((w ++ [32]).dropWhile p).isEmpty = true := by
          rw [List.dropWhile_append, hdw]
          simp [List.dropWhile, hp]
        rw [if_pos hfirst]
        exact ⟨ws', hgood', heq'⟩
      · have hfirst : ¬ ((w ++ [32]).dropWhile p).isEmpty = true := by
          rw [List.dropWhile_append]
          have : ¬ (w.dropWhile p).isEmpty = true := by
            simpa [List.isEmpty_iff] using hdw
          rw [if_neg this]
          simp [List.isEmpty_iff, hdw]
        rw [if_neg hfirst]
        refine ⟨w.dropWhile p :: v :: vs2, ?_, ?_⟩
        · intro x hx
          rcases List.mem_cons.mp hx with rfl | hx2
          · refine ⟨hdw, ?_⟩
            intro c hc
            exact hchars c ((List.dropWhile_sublist (p := p) (l := w)).subset hc)
          · exact h x (List.mem_cons_of_mem _ hx2)
        · rw [List.dropWhile_append]
          have : ¬ (w.dropWhile p).isEmpty = true := by
            simpa [List.isEmpty_iff] using hdw
          rw [if_neg this]
          show (w.dropWhile p ++ [32]) ++ pyJoin [32] (v :: vs2) =
            (w.dropWhile p ++ [32]) ++ pyJoin [32] (v :: vs2)
          rfl

theorem pyStrip_pyJoin (p : Nat → Bool) (hp : p 32 = true)
    (ws : List (List Nat)) (h : goodWords ws) :
    ∃ ws', goodWords ws' ∧
      pyStrip p (pyJoin [32] ws) = pyJoin [32] ws' := by
  obtain ⟨ws1, h1, e1⟩ := dropWhile_pyJoin p hp ws h
  obtain ⟨ws2, h2, e2⟩ :=
    dropWhile_pyJoin p hp ((ws1.map List.reverse).reverse) (goodWords_reverse _ h1)
  refine ⟨(ws2.map List.reverse).reverse, goodWords_reverse _ h2, ?_⟩
  unfold pyStrip dropRunL dropRunR
  rw [e1, pyJoin_reverse ws1, e2, pyJoin_reverse ws2]

theorem dropWhile_eq_self_of_headP (p : Nat → Bool) (l : List Nat)
    (h : ∀ a r, l = a :: r → p a = false) : l.dropWhile p = l := by
  cases l with
  | nil => rfl
  | cons a r => exact List.dropWhile_cons_of_neg (by simp [h a r rfl])

theorem pyJoin_head_good (ws : List (List Nat)) (h : goodWords ws) :
    ∀ a r, pyJoin [32] ws = a :: r → pyWs a = false := by
  intro a r heq
  cases ws with
  | nil => simp [pyJoin] at heq
  | cons w vs =>
    obtain ⟨hne, hchars⟩ := h w (List.mem_cons_self _ _)
    cases w with
    | nil => exact absurd rfl hne
    | cons b w2 =>
      have hb : b = a := by
        cases vs with
        | nil =>
          have : b :: w2 = a :: r := heq
          exact (List.cons.injEq _ _ _ _ ▸ this).1
        | cons v vs2 =>
          have h2 : b :: ((w2 ++ [32]) ++ pyJoin [32] (v :: vs2)) = a :: r := heq
          exact (List.cons.injEq _ _ _ _ ▸ h2).1
      rw [← hb]
      exact hchars b (List.mem_cons_self _ _)

theorem pyStripWs_pyJoin_fix (ws : List (List Nat)) (h : goodWords ws) :
    pyStripWs (pyJoin [32] ws) = pyJoin [32] ws := by
  unfold pyStripWs pyStrip dropRunL dropRunR
  rw [dropWhile_eq_self_of_headP pyWs _ (pyJoin_head_good ws h)]
  have hrev : (pyJoin [32] ws).reverse.dropWhile pyWs = (pyJoin [32] ws).reverse := by
    rw [pyJoin_reverse ws]
    exact dropWhile_eq_self_of_headP pyWs _
      (pyJoin_head_good _ (goodWords_reverse _ h))
  rw [hrev, List.reverse_reverse]

theorem pyStrip_eq_self_of_not_mem (p : Nat → Bool) (l : List Nat)
    (h : ∀ c ∈ l, p c = false) : pyStrip p l = l := by
  unfold pyStrip dropRunL dropRunR
  have h1 : l.dropWhile p = l :=
    dropWhile_eq_self_of_headP p l
      (fun a r heq => h a (by rw [heq]; exact List.mem_cons_self _ _))
  rw [h1]
  have h2 : l.reverse.dropWhile p = l.reverse :=
    dropWhile_eq_self_of_headP p l.reverse
      (fun a r heq =>
        h a (List.mem_reverse.mp (by rw [heq]; exact List.mem_cons_self _ _)))
  rw [h2, List.reverse_reverse]

theorem lowerC_lowerC (c : Nat) : lowerC (lowerC c) = lowerC c := by
  unfold lowerC
  by_cases h : (65 ≤ c && c ≤ 90) = true
  · rw [if_pos h]
    have hno : ¬ ((65 ≤ c + 32 && c + 32 ≤ 90) = true) := by
      simp only [Bool.and_eq_true, decide_eq_true_eq] at h ⊢
      omega
    rw [if_neg hno]
  · rw [if_neg h, if_neg h]

theorem lowerC_quote (c q : Nat) (hq : q < 97) :
    lowerC c = q → c = q := by
  intro h
  unfold lowerC at h
  by_cases hc : (65 ≤ c && c ≤ 90) = true
  · rw [if_pos hc] at h
    simp only [Bool.and_eq_true, decide_eq_true_eq] at hc
    omega
  · rwa [if_neg hc] at h

theorem lowerL_eq_self (l : List Nat) (h : ∀ c ∈ l, lowerC c = c) :
    lowerL l = l := by
  unfold lowerL
  conv_rhs => rw [← List.map_id l]
  exact List.map_congr_left h

theorem mem_pyStrip (p : Nat → Bool) (l : List Nat) (c : Nat)
    (h : c ∈ pyStrip p l) : c ∈ l := by
  unfold pyStrip dropRunL dropRunR at h
  rw [List.mem_reverse] at h
  have h2 := (List.dropWhile_sublist (p := p)
    (l := (l.dropWhile p).reverse)).subset h
  rw [List.mem_reverse] at h2
  exact (List.dropWhile_sublist (p := p) (l := l)).subset h2

theorem mem_pyJoin_sep (ws : List (List Nat)) (c : Nat)
    (h : c ∈ pyJoin [32] ws) : c = 32 ∨ ∃ w ∈ ws, c ∈ w := by
  induction ws with
  | nil => simp [pyJoin] at h
  | cons w vs ih =>
    cases vs with
    | nil => exact Or.inr ⟨w, List.mem_cons_self _ _, h⟩
    | cons v vs2 =>
      have h2 : c ∈ (w ++ [32]) ++ pyJoin [32] (v :: vs2) := h
      rcases List.mem_append.mp h2 with h3 | h3
      · rcases List.mem_append.mp h3 with hw | h32
        · exact Or.inr ⟨w, List.mem_cons_self _ _, hw⟩
        · simp only [List.mem_singleton] at h32
          exact Or.inl h32
      · rcases ih h3 with h32 | ⟨w2, hw2, hc2⟩
        · exact Or.inl h32
        · exact Or.inr ⟨w2, List.mem_cons_of_mem _ hw2, hc2⟩

theorem s0_of_shape (s : List Nat) :
    ∃ ws, goodWords ws ∧ s0_of s = pyJoin [32] ws := by
  unfold s0_of collapseWs
  exact pyStrip_pyJoin sdcPunct rfl _ (pySplitWs_good _)

theorem mem_s0_of (s : List Nat) (c : Nat) (h : c ∈ s0_of s) :
    c = 32 ∨ ∃ c0 ∈ s, c = lowerC c0 := by
  unfold s0_of collapseWs at h
  have h1 := mem_pyStrip _ _ _ h
  rcases mem_pyJoin_sep _ _ h1 with h32 | ⟨w, hw, hcw⟩
  · exact Or.inl h32
  · have h2 := mem_pySplitWs _ w hw c hcw
    unfold lowerL at h2
    rw [List.mem_map] at h2
    obtain ⟨c0, hc0, rfl⟩ := h2
    have h3 := mem_pyStrip _ _ _ hc0
    have h4 := mem_pyStrip _ _ _ h3
    have h5 := mem_pyStrip _ _ _ h4
    exact Or.inr ⟨c0, h5, rfl⟩

theorem s0_of_fix (y : List Nat)
    (hsw : pyStripWs y = y)
    (hs34 : pyStrip (fun c => c = 34) y = y)
    (hs39 : pyStrip (fun c => c = 39) y = y)
    (hlow : lowerL y = y)
    (hcol : collapseWs y = y)
    (hstrip : pyStrip sdcPunct y = y) :
    s0_of y = y := by
  unfold s0_of
  rw [hsw, hs34, hs39, hlow, hcol, hstrip]

theorem s0_of_idem (s : List Nat) (hq : ∀ c ∈ s, c ≠ 34 ∧ c ≠ 39) :
    s0_of (s0_of s) = s0_of s := by
  obtain ⟨ws, hgood, hshape⟩ := s0_of_shape s
  have hnoq : ∀ c ∈ s0_of s, c ≠ 34 ∧ c ≠ 39 := by
    intro c hc
    rcases mem_s0_of s c hc with rfl | ⟨c0, hc0, rfl⟩
    · exact ⟨by norm_num, by norm_num⟩
    · have hq0 := hq c0 hc0
      constructor
      · intro h34
        exact hq0.1 (lowerC_quote c0 34 (by norm_num) h34)
      · intro h39
        exact hq0.2 (lowerC_quote c0 39 (by norm_num) h39)
  apply s0_of_fix
  · rw [hshape]
    exact pyStripWs_pyJoin_fix ws hgood
  · exact pyStrip_eq_self_of_not_mem _ _
      (fun c hc => by simp [(hnoq c hc).1])
  · exact pyStrip_eq_self_of_not_mem _ _
      (fun c hc => by simp [(hnoq c hc).2])
  · apply lowerL_eq_self
    intro c hc
    rcases mem_s0_of s c hc with rfl | ⟨c0, _, rfl⟩
    · rfl
    · exact lowerC_lowerC c0
  · rw [hshape]
    unfold collapseWs
    rw [pySplitWs_pyJoin ws hgood]
  · show pyStrip sdcPunct (s0_of s) = s0_of s
    unfold s0_of
    exact pyStrip_idem _ _

/-- Claim C2 (amended): `normalize_token` is idempotent on every input
that contains no double quote and no apostrophe and whose cleaned
string `t` fails the decimal parse — the string-fallback path.  (The
two failure modes of the unrestricted claim are the counterexample
theorem's quote exposure and scientific-notation boundary.) -/
theorem normalize_token_idempotent_on_fallback (s : List Nat)
    (hq : ∀ c ∈ s, c ≠ 34 ∧ c ≠ 39)
    (hfail : dec_parse (t_of s) = Option.none) :
    normalize_token (normalize_token s) = normalize_token s := by
  have hidem := s0_of_idem s hq
  have ht : t_of (s0_of s) = t_of s := by
    unfold t_of
    rw [hidem]
  have h1 : normalize_token s = s0_of s := by
    unfold normalize_token
    rw [hfail]
  rw [h1]
  have h2 : normalize_token (s0_of s) = s0_of (s0_of s) := by
    unfold normalize_token
    rw [ht, hfail, hidem]
  rw [h2, hidem]

/-- Witness for `normalize_token_idempotent_on_fallback` at
`"New York"`. -/
theorem normalize_token_idempotent_on_fallback_witness :
    (∀ c ∈ chars "New York", c ≠ 34 ∧ c ≠ 39) ∧
    dec_parse (t_of (chars "New York")) = Option.none ∧
    normalize_token (normalize_token (chars "New York")) =
      normalize_token (chars "New York") :=
  ⟨by decide, by decide,
   normalize_token_idempotent_on_fallback (chars "New York")
     (by decide) (by decide)⟩

end DspyWtq
